import Mathlib

/-!
Verification development for the meta-oxide metadata-extraction library.

The repository ships only the Python test-suite and examples of the
extraction engine; the engine itself (HTML tokenizer, URL resolver, JSON
parser and the extractor family) is not part of the sources.  Every
definition below whose doc comment starts with `Modelled from the spec:`
is therefore a shallow embedding of the component as the specification
describes it (spec.md sections are cited), not a transcription of code.

All machinery is executable: the tokenizer and the JSON parser recurse on
an explicit fuel counter (always instantiated with more fuel than the
input length, so it never runs out on real inputs), which makes totality
— the spec's termination guarantee — hold by construction.
-/

namespace MetaOxide

/-- Modelled from the spec: §3 "Node" — a permissive DOM node: an element
with a lowercase tag name, an ordered attribute list (duplicates keep the
first) and ordered children, or a text node, or a comment node. -/
inductive Node where
  | elem (tag : String) (attrs : List (String × String)) (children : List Node)
  | text (s : String)
  | comment (s : String)

mutual

/-- Number of nodes in a tree, used to seed fuel for DOM walks. -/
def nodeSize : Node → Nat
  | .elem _ _ cs => 1 + nodesSize cs
  | .text _ => 1
  | .comment _ => 1

/-- Number of nodes in a forest. -/
def nodesSize : List Node → Nat
  | [] => 0
  | n :: ns => nodeSize n + nodesSize ns

end

/-- ASCII whitespace as the tokenizer treats it. -/
def isWs (c : Char) : Bool :=
  c == ' ' || c == '\n' || c == '\t' || c == '\r' || c == '\x0c'

/-- ASCII letter test, used to recognize tag-name starts. -/
def isAlpha (c : Char) : Bool :=
  ('a' ≤ c && c ≤ 'z') || ('A' ≤ c && c ≤ 'Z')

/-- ASCII digit test. -/
def isDigit (c : Char) : Bool :=
  48 ≤ c.toNat && c.toNat ≤ 57

/-- ASCII lowercasing of one character. -/
def lowerChar (c : Char) : Char :=
  if 'A' ≤ c && c ≤ 'Z' then Char.ofNat (c.toNat + 32) else c

/-- ASCII lowercasing of a character list. -/
def lowerL (cs : List Char) : List Char := cs.map lowerChar

/-- ASCII lowercasing of a string (tag names, attribute names, rel tokens). -/
def lowerS (s : String) : String := ⟨lowerL s.data⟩

/-- Drop leading ASCII whitespace from a character list. -/
def skipWs : List Char → List Char
  | [] => []
  | c :: cs => if isWs c then skipWs cs else c :: cs

/-- Trim both ends of a character list. -/
def trimL (cs : List Char) : List Char :=
  (skipWs (skipWs cs.reverse).reverse)

/-- Trim both ends of a string. -/
def trimS (s : String) : String := ⟨trimL s.data⟩

/-- Does the list start with the given pattern (after ASCII lowercasing)? -/
def startsWithLower : List Char → List Char → Bool
  | [], _ => true
  | _ :: _, [] => false
  | p :: ps, c :: cs => p == lowerChar c && startsWithLower ps cs

/-- Collapse runs of whitespace to single spaces and trim: the "plain
text" normalization used for element text content. -/
def collapseWs (cs : List Char) : List Char :=
  let step := fun (c : Char) (acc : List Char) =>
    if isWs c then
      match acc with
      | ' ' :: _ => acc
      | _ => ' ' :: acc
    else c :: acc
  trimL (cs.foldr step [])

/-- Split a character list on a separator character. -/
def splitOnChar (sep : Char) : List Char → List (List Char)
  | [] => [[]]
  | c :: cs =>
    let rest := splitOnChar sep cs
    if c == sep then [] :: rest
    else match rest with
      | g :: gs => (c :: g) :: gs
      | [] => [[c]]

/-- Split a string on ASCII whitespace into nonempty tokens (class lists,
rel lists, itemtype lists). -/
def wsTokens (s : String) : List String :=
  ((s.data.foldr (fun c acc =>
      if isWs c then [] :: acc
      else match acc with
        | g :: gs => (c :: g) :: gs
        | [] => [[c]]) []).filter (fun g => !g.isEmpty)).map (fun g => (⟨g⟩ : String))

/-- First attribute value for a (lowercase) attribute name. -/
def getAttr (attrs : List (String × String)) (name : String) : Option String :=
  (attrs.find? (fun kv => kv.1 == name)).map (·.2)

/-- Attribute lookup defaulting to the empty string. -/
def attrD (attrs : List (String × String)) (name : String) : String :=
  (getAttr attrs name).getD ""

/-- Is the attribute present (even with an empty value)? -/
def hasAttr (attrs : List (String × String)) (name : String) : Bool :=
  attrs.any (fun kv => kv.1 == name)

/-- Modelled from the spec: §4.1 — the tokenizer is responsible for
entity decoding; the model decodes the five predefined named entities and
decimal `&#39;`-style references are limited to the apostrophe form the
tests use. Unknown entities pass through verbatim. -/
def decodeEntities : Nat → List Char → List Char
  | 0, cs => cs
  | _ + 1, [] => []
  | f + 1, '&' :: cs =>
    if startsWithLower ['a', 'm', 'p', ';'] cs then
      '&' :: decodeEntities f (cs.drop 4)
    else if startsWithLower ['l', 't', ';'] cs then
      '<' :: decodeEntities f (cs.drop 3)
    else if startsWithLower ['g', 't', ';'] cs then
      '>' :: decodeEntities f (cs.drop 3)
    else if startsWithLower ['q', 'u', 'o', 't', ';'] cs then
      '"' :: decodeEntities f (cs.drop 5)
    else if startsWithLower ['a', 'p', 'o', 's', ';'] cs then
      '\'' :: decodeEntities f (cs.drop 5)
    else if startsWithLower ['#', '3', '9', ';'] cs then
      '\'' :: decodeEntities f (cs.drop 4)
    else
      '&' :: decodeEntities f cs
  | f + 1, c :: cs => c :: decodeEntities f cs

/-- Decode entities in a string with self-sized fuel. -/
def decodeS (s : String) : String := ⟨decodeEntities (s.data.length + 1) s.data⟩

/-- Characters that may appear in a tag or attribute name. -/
def isNameChar (c : Char) : Bool :=
  !(isWs c) && c != '>' && c != '/' && c != '=' && c != '<' && c != '"' && c != '\''

/-- Read a maximal run of name characters. -/
def readName : List Char → List Char × List Char
  | [] => ([], [])
  | c :: cs =>
    if isNameChar c then
      let (nm, rest) := readName cs
      (c :: nm, rest)
    else ([], c :: cs)

/-- Read text characters up to (excluding) the next `<`. -/
def readText : List Char → List Char × List Char
  | [] => ([], [])
  | c :: cs =>
    if c == '<' then ([], c :: cs)
    else
      let (t, rest) := readText cs
      (c :: t, rest)

/-- Drop everything up to and including the next `>`. -/
def skipToGt : List Char → List Char
  | [] => []
  | c :: cs => if c == '>' then cs else skipToGt cs

/-- Read an attribute value after `=`: quoted with either quote kind, or
an unquoted run ending at whitespace or `>`. -/
def readAttrValue (cs : List Char) : List Char × List Char :=
  match cs with
  | '"' :: r => readQuoted '"' r
  | '\'' :: r => readQuoted '\'' r
  | _ =>
    let rec readUnquoted : List Char → List Char × List Char
      | [] => ([], [])
      | c :: t =>
        if isWs c || c == '>' then ([], c :: t)
        else
          let (v, rest) := readUnquoted t
          (c :: v, rest)
    readUnquoted cs
where
  readQuoted (q : Char) : List Char → List Char × List Char
    | [] => ([], [])
    | c :: t =>
      if c == q then ([], t)
      else
        let (v, rest) := readQuoted q t
        (c :: v, rest)

/-- Insert an attribute, keeping the first occurrence of a duplicate name
(spec §3: "duplicate attributes keep the first"). -/
def addAttr (attrs : List (String × String)) (k v : String) : List (String × String) :=
  if hasAttr attrs k then attrs else attrs ++ [(k, v)]

/-- Modelled from the spec: §2.1 — attribute scanning inside a start tag.
Consumes `name[=value]` pairs permissively until `>` or `/>`; stray
characters are skipped so the scan always progresses.  Returns the
attributes, the rest of the input after the closing `>`, and whether the
tag was self-closing. -/
def parseAttrs : Nat → List (String × String) → List Char →
    List (String × String) × List Char × Bool
  | 0, acc, cs => (acc, cs, false)
  | f + 1, acc, cs =>
    match skipWs cs with
    | [] => (acc, [], false)
    | '>' :: r => (acc, r, false)
    | '/' :: r =>
      (match r with
       | '>' :: r' => (acc, r', true)
       | _ => parseAttrs f acc r)
    | c :: r =>
      if isNameChar c then
        let (nm, rest) := readName (c :: r)
        let key := lowerS ⟨nm⟩
        match skipWs rest with
        | '=' :: r2 =>
          let (v, rest2) := readAttrValue (skipWs r2)
          parseAttrs f (addAttr acc key (decodeS ⟨v⟩)) rest2
        | other => parseAttrs f (addAttr acc key "") other
      else
        -- stray character (quote, '=', '<', ...): drop it and continue
        parseAttrs f acc r

/-- Void elements: never take children (HTML parsing model). -/
def voidTags : List String :=
  ["meta", "link", "img", "br", "hr", "input", "area", "base", "col",
   "embed", "source", "track", "wbr", "param"]

/-- Raw-text elements: contents are kept as literal text until the
matching close tag (spec §9: `<script>`/`<style>` contents are raw so a
fake `<meta>` inside JavaScript is not misread). -/
def rawTags : List String := ["script", "style"]

/-- Does the input (positioned just after `</`) close the given tag?  The
match is ASCII-case-insensitive and accepts whitespace before `>`. -/
def closesTag (tag : List Char) (cs : List Char) : Bool :=
  startsWithLower tag cs &&
    (match skipWs (cs.drop tag.length) with
     | [] => true
     | '>' :: _ => true
     | _ => false)

/-- Scan raw text until `</tag`, returning the raw content and the input
after the close tag's `>`. -/
def readRawText (tag : List Char) : Nat → List Char → List Char × List Char
  | 0, cs => (cs, [])
  | _ + 1, [] => ([], [])
  | f + 1, '<' :: '/' :: r =>
    if closesTag tag r then ([], skipToGt r)
    else
      let (t, rest) := readRawText tag f ('/' :: r)
      ('<' :: t, rest)
  | f + 1, c :: cs =>
    let (t, rest) := readRawText tag f cs
    (c :: t, rest)

/-- Read an HTML comment body after `<!--`, up to `-->`. -/
def readComment : Nat → List Char → List Char × List Char
  | 0, cs => (cs, [])
  | _ + 1, [] => ([], [])
  | _ + 1, '-' :: '-' :: '>' :: r => ([], r)
  | f + 1, c :: cs =>
    let (t, rest) := readComment f cs
    (c :: t, rest)

/-- Modelled from the spec: §2.1 — the permissive tokenizer/tree builder.
It must not fail on unclosed tags, mismatched quotes, stray `<`/`>`, or
unknown elements: unmatched close tags are ignored, end of input closes
every open element, and when the fuel counter (always seeded above the
input length) runs out the remaining input is abandoned rather than
looping.  `stop` is the enclosing element's tag: its close tag ends the
child list. -/
def parseNodes : Nat → Option (List Char) → List Char → List Node × List Char
  | 0, _, cs => ([], cs)
  | _ + 1, _, [] => ([], [])
  | f + 1, stop, '<' :: '/' :: r =>
    let (nm, rest) := readName r
    if nm.isEmpty then
      -- "</" with no name: drop the stray characters and continue
      parseNodes f stop (skipToGt rest)
    else if (match stop with | some t => closesTag t r | none => false) then
      ([], skipToGt rest)
    else
      -- unmatched close tag: ignored by the permissive parser
      parseNodes f stop (skipToGt rest)
  | f + 1, stop, '<' :: '!' :: r =>
    if startsWithLower ['-', '-'] r then
      let (body, rest) := readComment f (r.drop 2)
      let (ns, rest2) := parseNodes f stop rest
      (Node.comment ⟨body⟩ :: ns, rest2)
    else
      -- doctype or stray declaration: skip to `>`
      parseNodes f stop (skipToGt r)
  | f + 1, stop, '<' :: c :: r =>
    if isAlpha c then
      let (nm, rest) := readName (c :: r)
      let tag := lowerS ⟨nm⟩
      let (attrs, rest2, selfClose) := parseAttrs f [] rest
      if selfClose || voidTags.contains tag then
        let (ns, rest3) := parseNodes f stop rest2
        (Node.elem tag attrs [] :: ns, rest3)
      else if rawTags.contains tag then
        let (raw, rest3) := readRawText tag.data f rest2
        let (ns, rest4) := parseNodes f stop rest3
        (Node.elem tag attrs [Node.text ⟨raw⟩] :: ns, rest4)
      else
        let (kids, rest3) := parseNodes f (some tag.data) rest2
        let (ns, rest4) := parseNodes f stop rest3
        (Node.elem tag attrs kids :: ns, rest4)
    else
      -- stray `<`: treat it as text
      let (t, rest) := readText (c :: r)
      let (ns, rest2) := parseNodes f stop rest
      (Node.text ⟨'<' :: decodeEntities (t.length + 1) t⟩ :: ns, rest2)
  | f + 1, stop, c :: r =>
    let (t, rest) := readText (c :: r)
    let (ns, rest2) := parseNodes f stop rest
    (Node.text (decodeS ⟨t⟩) :: ns, rest2)

/-- Modelled from the spec: §2.1 — the single HTML-to-DOM parse every
extractor shares.  Total for every input string. -/
def parseHtml (s : String) : List Node :=
  (parseNodes (s.data.length + 1) none s.data).1

/-- Modelled from the spec: §2.2 — a parsed absolute base URL: scheme,
host, and path. -/
structure Url where
  scheme : String
  host : String
  path : String

/-- Does the string begin with a URL scheme (`alpha (alnum|+|-|.)* ":"`)? -/
def hasScheme (s : String) : Bool :=
  match s.data with
  | c :: cs =>
    isAlpha c &&
      (let rest := cs.dropWhile (fun d => isAlpha d || isDigit d || d == '+' || d == '-' || d == '.')
       match rest with
       | ':' :: _ => true
       | _ => false)
  | [] => false

/-- Split a character list at the first occurrence of a character;
returns the part before and the part after (separator dropped). -/
def splitAtChar (sep : Char) : List Char → List Char × Option (List Char)
  | [] => ([], none)
  | c :: cs =>
    if c == sep then ([], some cs)
    else
      let (a, b) := splitAtChar sep cs
      (c :: a, b)

/-- Modelled from the spec: §2.2 — base-URL parsing.  A base parses only
when it has the shape `scheme://host[/path...]` with a nonempty scheme
and host; anything else (plain text, a relative path, the empty string)
fails and is treated as an absent base. -/
def parseUrl (s : String) : Option Url :=
  if !hasScheme s then none
  else
    let (sch, rest?) := splitAtChar ':' s.data
    match rest? with
    | some ('/' :: '/' :: rest) =>
      let (host, path?) := splitAtChar '/' rest
      if host.isEmpty then none
      else
        some { scheme := ⟨sch⟩, host := ⟨host⟩,
               path := match path? with
                 | some p => ⟨'/' :: p⟩
                 | none => "" }
    | _ => none

/-- The directory part of a path: everything up to and including the
last `/`, defaulting to `/`. -/
def dirOf (path : String) : String :=
  let rev := path.data.reverse
  let cut := rev.dropWhile (fun c => c != '/')
  match cut with
  | [] => "/"
  | _ => ⟨cut.reverse⟩

/-- Modelled from the spec: §2.2 and §3 invariants — URL resolution: a
pure function of (base, reference) that returns the reference unchanged
when the base is absent or resolution does not apply; scheme-absolute
references pass through. -/
def resolveUrl (base : Option Url) (ref : String) : String :=
  match base with
  | none => ref
  | some b =>
    if ref.isEmpty then ref
    else if hasScheme ref then ref
    else match ref.data with
      | '/' :: '/' :: _ => b.scheme ++ ":" ++ ref
      | '/' :: _ => b.scheme ++ "://" ++ b.host ++ ref
      | _ => b.scheme ++ "://" ++ b.host ++ dirOf b.path ++ ref

/-- Modelled from the spec: §4.7 and §9 — a JSON value as the JSON-LD
extractor keeps it: parsed literal structure with key order preserved and
numbers kept in their lexical form (no numeric widening). -/
inductive Json where
  | null
  | bool (b : Bool)
  | num (lexical : String)
  | str (s : String)
  | arr (elems : List Json)
  | obj (members : List (String × Json))

/-- Hex digit value, for `\uXXXX` string escapes. -/
def hexDigit (c : Char) : Option Nat :=
  let n := c.toNat
  if 48 ≤ n && n ≤ 57 then some (n - 48)
  else if 97 ≤ n && n ≤ 102 then some (n - 87)
  else if 65 ≤ n && n ≤ 70 then some (n - 55)
  else none

/-- Parse the body of a JSON string after the opening quote: named
escapes, `\uXXXX`, and literal characters, strict about an unterminated
string.  Returns the decoded string and the input after the close quote. -/
def jsonString : Nat → List Char → Option (List Char × List Char)
  | 0, _ => none
  | _ + 1, [] => none
  | f + 1, c :: cs =>
    if c == '"' then some ([], cs)
    else if c == '\\' then
      match cs with
      | [] => none
      | e :: cs' =>
        let simple : Option Char :=
          if e == '"' then some '"'
          else if e == '\\' then some '\\'
          else if e == '/' then some '/'
          else if e == 'n' then some '\n'
          else if e == 't' then some '\t'
          else if e == 'r' then some '\r'
          else if e == 'b' then some '\x08'
          else if e == 'f' then some '\x0c'
          else none
        match simple with
        | some d =>
          match jsonString f cs' with
          | some (t, rest) => some (d :: t, rest)
          | none => none
        | none =>
          if e == 'u' then
            match cs' with
            | h1 :: h2 :: h3 :: h4 :: cs'' =>
              match hexDigit h1, hexDigit h2, hexDigit h3, hexDigit h4 with
              | some a, some b, some c', some d =>
                let n := ((a * 16 + b) * 16 + c') * 16 + d
                let ch := if h : n.isValidChar then Char.ofNatAux n h else '?'
                match jsonString f cs'' with
                | some (t, rest) => some (ch :: t, rest)
                | none => none
              | _, _, _, _ => none
            | _ => none
          else none
    else
      match jsonString f cs with
      | some (t, rest) => some (c :: t, rest)
      | none => none

/-- Lexical JSON number after an optional leading `-`: digits, optional
fraction, optional exponent.  Returns the consumed characters. -/
def jsonNumber (cs : List Char) : Option (List Char × List Char) :=
  let (intPart, r1) := (cs.takeWhile isDigit, cs.dropWhile isDigit)
  if intPart.isEmpty then none
  else
    let (frac, r2) :=
      match r1 with
      | '.' :: t =>
        let ds := t.takeWhile isDigit
        if ds.isEmpty then ([], r1) else ('.' :: ds, t.dropWhile isDigit)
      | _ => ([], r1)
    let (expPart, r3) :=
      match r2 with
      | e :: t =>
        if e == 'e' || e == 'E' then
          let (sgn, t2) :=
            match t with
            | s :: t' => if s == '+' || s == '-' then ([s], t') else ([], t)
            | [] => ([], t)
          let ds := t2.takeWhile isDigit
          if ds.isEmpty then ([], r2) else (e :: (sgn ++ ds), t2.dropWhile isDigit)
        else ([], r2)
      | [] => ([], r2)
    some (intPart ++ frac ++ expPart, r3)

mutual

/-- Modelled from the spec: §2.3 and §4.7 — the strict JSON value
grammar.  Any lexical fault yields `none` (the block is dropped); the
parser never throws. -/
def jsonVal : Nat → List Char → Option (Json × List Char)
  | 0, _ => none
  | f + 1, cs =>
    match skipWs cs with
    | [] => none
    | '{' :: r =>
      (match skipWs r with
       | '}' :: r2 => some (Json.obj [], r2)
       | _ =>
         match jsonMembers f (skipWs r) with
         | some (ms, rest) => some (Json.obj ms, rest)
         | none => none)
    | '[' :: r =>
      (match skipWs r with
       | ']' :: r2 => some (Json.arr [], r2)
       | _ =>
         match jsonElems f (skipWs r) with
         | some (es, rest) => some (Json.arr es, rest)
         | none => none)
    | '"' :: r =>
      (match jsonString f r with
       | some (s, rest) => some (Json.str ⟨s⟩, rest)
       | none => none)
    | 't' :: 'r' :: 'u' :: 'e' :: r => some (Json.bool true, r)
    | 'f' :: 'a' :: 'l' :: 's' :: 'e' :: r => some (Json.bool false, r)
    | 'n' :: 'u' :: 'l' :: 'l' :: r => some (Json.null, r)
    | '-' :: r =>
      (match jsonNumber r with
       | some (ds, rest) => some (Json.num ⟨'-' :: ds⟩, rest)
       | none => none)
    | c :: r =>
      if isDigit c then
        match jsonNumber (c :: r) with
        | some (ds, rest) => some (Json.num ⟨ds⟩, rest)
        | none => none
      else none

/-- Object members: `"key" : value (, "key" : value)*` then `}`. -/
def jsonMembers : Nat → List Char → Option (List (String × Json) × List Char)
  | 0, _ => none
  | f + 1, cs =>
    match skipWs cs with
    | '"' :: r =>
      (match jsonString f r with
       | some (k, r2) =>
         (match skipWs r2 with
          | ':' :: r3 =>
            (match jsonVal f r3 with
             | some (v, r4) =>
               (match skipWs r4 with
                | ',' :: r5 =>
                  (match jsonMembers f r5 with
                   | some (ms, rest) => some ((⟨k⟩, v) :: ms, rest)
                   | none => none)
                | '}' :: r5 => some ([(⟨k⟩, v)], r5)
                | _ => none)
             | none => none)
          | _ => none)
       | none => none)
    | _ => none

/-- Array elements: `value (, value)*` then `]`. -/
def jsonElems : Nat → List Char → Option (List Json × List Char)
  | 0, _ => none
  | f + 1, cs =>
    match jsonVal f cs with
    | some (v, r) =>
      (match skipWs r with
       | ',' :: r2 =>
         (match jsonElems f r2 with
          | some (es, rest) => some (v :: es, rest)
          | none => none)
       | ']' :: r2 => some ([v], r2)
       | _ => none)
    | none => none

end

/-- Modelled from the spec: §2.3 — the tolerant entry point: parse one
JSON document; trailing garbage after the value is a parse failure; on
malformed input it yields no value rather than propagating an error. -/
def parseJson (s : String) : Option Json :=
  match jsonVal (s.data.length + 1) s.data with
  | some (j, rest) => if (skipWs rest).isEmpty then some j else none
  | none => none

/-- Pre-order list of all element nodes of a forest (fuel-bounded walk;
the fuel is seeded with `sizeOf`, which always suffices). -/
def allElems : Nat → List Node → List Node
  | 0, _ => []
  | _ + 1, [] => []
  | f + 1, n :: rest =>
    match n with
    | .elem t a cs => .elem t a cs :: (allElems f cs ++ allElems f rest)
    | _ => allElems f rest

/-- Concatenated text content of a forest (comments ignored). -/
def textContentL : Nat → List Node → String
  | 0, _ => ""
  | _ + 1, [] => ""
  | f + 1, n :: rest =>
    match n with
    | .text s => s ++ textContentL f rest
    | .comment _ => textContentL f rest
    | .elem _ _ cs => textContentL f cs ++ textContentL f rest

/-- Trimmed, whitespace-collapsed text content of a node's children: the
"plain value" used by `p-` properties and implied names. -/
def plainText (cs : List Node) : String :=
  ⟨collapseWs (textContentL (nodesSize cs + 1) cs).data⟩

/-- Modelled from the spec: §3 MetaRecord values — a scalar string or an
ordered list of strings. -/
inductive MetaValue where
  | s (v : String)
  | l (vs : List String)

/-- Emit one record entry, dropping empty keys (spec §3 invariant: "Keys
in every record are non-empty"). -/
def emitKV (k : String) (v : MetaValue) : List (String × MetaValue) :=
  if k = "" then [] else [(k, v)]

/-- Merge one entry into a record: scalar keys are first-wins, list keys
append (spec §4.1 "Duplicate keys: first occurrence wins for scalar keys;
list keys append"). -/
def mergeOne (acc : List (String × MetaValue)) (e : String × MetaValue) :
    List (String × MetaValue) :=
  match (acc.find? (fun kv => kv.1 == e.1)) with
  | none => acc ++ [e]
  | some (_, MetaValue.l _) =>
    (match e.2 with
     | MetaValue.l ys =>
       acc.map (fun kv =>
         if kv.1 == e.1 then
           (kv.1, match kv.2 with
                  | MetaValue.l xs => MetaValue.l (xs ++ ys)
                  | other => other)
         else kv)
     | MetaValue.s _ => acc)
  | some (_, MetaValue.s _) => acc

/-- Fold a list of entries into a record. -/
def mergeEntries (acc : List (String × MetaValue)) (es : List (String × MetaValue)) :
    List (String × MetaValue) :=
  es.foldl mergeOne acc

/-- Meta names mapped through the known-key table as scalars (spec §4.1
examples; exact key names in output). -/
def scalarMetaNames : List String :=
  ["description", "author", "generator", "viewport", "robots",
   "theme-color", "application-name"]

/-- Verification-token names normalized to snake_case keys (spec §4.1). -/
def verificationNames : List String :=
  ["google-site-verification", "facebook-domain-verification",
   "yandex-verification", "p:domain_verify"]

/-- Snake-case normalization for verification-token keys. -/
def snakeKey (s : String) : String :=
  ⟨s.data.map (fun c => if c == '-' || c == '.' || c == ':' then '_' else c)⟩

/-- Split a keywords attribute on `,`, trim entries, drop empty ones
(spec §4.1). -/
def splitKeywords (s : String) : List String :=
  ((splitOnChar ',' s.data).map (fun g => (⟨trimL g⟩ : String))).filter (fun t => t ≠ "")

/-- Extract the `charset=X` parameter of a content-type value. -/
def charsetOf (content : String) : Option String :=
  let lower := lowerL content.data
  let rec find : List Char → Option (List Char)
    | [] => none
    | c :: cs =>
      if startsWithLower ['c', 'h', 'a', 'r', 's', 'e', 't', '='] (c :: cs) then
        some ((c :: cs).drop 8)
      else find cs
  match find lower with
  | some rest =>
    let v := trimL (rest.takeWhile (fun c => c != ';'))
    if v.isEmpty then none else some ⟨v⟩
  | none => none

/-- Modelled from the spec: §4.1 — the candidate record entries one
element contributes to the meta record.  The model covers the keys the
spec names in §4.1 except the `icons`, `hreflang` and `feeds` link lists,
which no claim touches: `<title>`, `<meta name=...>` through the known-key
table (keywords split to a list, verification tokens snake_cased, unknown
names passed through with their literal lowercased key), `<meta charset>`,
`<meta http-equiv=refresh|content-type>`, `<link rel=canonical>`
(URL-resolved) and `<html lang>`.  Empty content is skipped. -/
def metaPairsOf (base : Option Url) (n : Node) : List (String × MetaValue) :=
  match n with
  | .elem "title" _ cs =>
    let t := plainText cs
    if t = "" then [] else [("title", .s t)]
  | .elem "meta" attrs _ =>
    (match getAttr attrs "charset" with
     | some c => if c = "" then [] else [("charset", .s c)]
     | none =>
       match getAttr attrs "name" with
       | some nm0 =>
         let nm := lowerS nm0
         let content := attrD attrs "content"
         if content = "" then []
         else if nm = "keywords" then
           (match splitKeywords content with
            | [] => []
            | ks => [("keywords", .l ks)])
         else if scalarMetaNames.contains nm then [(nm, .s content)]
         else if verificationNames.contains nm then [(snakeKey nm, .s content)]
         else [(nm, .s content)]
       | none =>
         match getAttr attrs "http-equiv" with
         | some he =>
           let content := attrD attrs "content"
           if content = "" then []
           else if lowerS he = "refresh" then [("refresh", .s content)]
           else if lowerS he = "content-type" then
             (match charsetOf content with
              | some c => [("charset", .s c)]
              | none => [])
           else []
         | none => [])
  | .elem "link" attrs _ =>
    let rels := (wsTokens (attrD attrs "rel")).map lowerS
    let href := attrD attrs "href"
    if rels.contains "canonical" && href ≠ "" then
      [("canonical", .s (resolveUrl base href))]
    else []
  | .elem "html" attrs _ =>
    (match getAttr attrs "lang" with
     | some lg => if lg = "" then [] else [("language", .s lg)]
     | none => [])
  | _ => []

/-- The meta record of a parsed DOM (spec §4.1), with empty keys guarded
out by `emitKV`. -/
def metaFromDom (base : Option Url) (ns : List Node) : List (String × MetaValue) :=
  (allElems (nodesSize ns + 1) ns).foldl
    (fun acc n => mergeEntries acc ((metaPairsOf base n).flatMap (fun kv => emitKV kv.1 kv.2)))
    []

/-- Modelled from the spec: §6 — `extract_meta(html, base_url?)`.  An
unparseable base URL is treated as absent. -/
def extract_meta (html : String) (base_url : Option String := none) :
    List (String × MetaValue) :=
  metaFromDom (base_url.bind parseUrl) (parseHtml html)

/-- Modelled from the spec: §3 OpenGraphRecord — the Open Graph record as
the claims use it: the scalar core fields, the `image` subrecord list
(each subrecord an ordered key→value mapping opened by a bare `og:image`
and filled by `og:image:*` qualifiers), and the remaining recognized
properties kept verbatim in `extra`.  The video/audio/music/article/book
/profile subrecord groups follow the identical rule and are represented
through `extra`, which no claim inspects. -/
structure OgRecord where
  title : Option String
  description : Option String
  url : Option String
  type_ : Option String
  images : List (List (String × String))
  extra : List (String × String)

/-- The empty Open Graph record. -/
def ogEmpty : OgRecord :=
  { title := none, description := none, url := none, type_ := none,
    images := [], extra := [] }

/-- Keep the first value of a scalar field (first occurrence wins). -/
def fw (old : Option String) (v : String) : Option String :=
  match old with
  | some _ => old
  | none => some v

/-- Replace the last element of a list, if any. -/
def updateLast (l : List α) (f : α → α) : List α :=
  match l with
  | [] => []
  | [x] => [f x]
  | x :: xs => x :: updateLast xs f

/-- Does the string start with the given literal? -/
def startsWithS (s pre : String) : Bool :=
  startsWithLower (lowerL pre.data) s.data

/-- The suffix after a known lead, as a string. -/
def dropS (s : String) (n : Nat) : String := ⟨s.data.drop n⟩

/-- Recognized Open Graph property lead-ins (spec §4.2). -/
def ogLeads : List String :=
  ["og:", "article:", "book:", "profile:", "music:", "video:", "fb:"]

/-- Modelled from the spec: §4.2 — one `<meta property=... content=...>`
folded into the Open Graph record.  A bare `og:image` begins a new
subrecord in the image list; a qualified `og:image:*` attaches to the
most recently opened subrecord (kept verbatim, URLs resolved for the
url-typed qualifiers); when no subrecord is open the qualifier is
dropped. Other recognized properties are kept verbatim in `extra`
(first occurrence wins). -/
def ogStep (base : Option Url) (acc : OgRecord) (prop content : String) : OgRecord :=
  if prop = "og:title" then { acc with title := fw acc.title content }
  else if prop = "og:description" then { acc with description := fw acc.description content }
  else if prop = "og:url" then { acc with url := fw acc.url (resolveUrl base content) }
  else if prop = "og:type" then { acc with type_ := fw acc.type_ content }
  else if prop = "og:image" then
    { acc with images := acc.images ++ [[("url", resolveUrl base content)]] }
  else if startsWithS prop "og:image:" then
    let q := dropS prop 9
    let v := if q = "url" || q = "secure_url" then resolveUrl base content else content
    (match acc.images with
     | [] => acc
     | _ => { acc with images := updateLast acc.images (fun sub => sub ++ [(q, v)]) })
  else if ogLeads.any (fun l => startsWithS prop l) then
    (if acc.extra.any (fun kv => kv.1 == prop) then acc
     else { acc with extra := acc.extra ++ [(prop, content)] })
  else acc

/-- The `property`/`content` pairs of every `<meta>` element, in document
order. -/
def metaPropPairs (ns : List Node) : List (String × String) :=
  (allElems (nodesSize ns + 1) ns).flatMap (fun n =>
    match n with
    | .elem "meta" attrs _ =>
      (match getAttr attrs "property" with
       | some p =>
         let c := attrD attrs "content"
         if p = "" || c = "" then [] else [(p, c)]
       | none => [])
    | _ => [])

/-- The Open Graph record of a parsed DOM (spec §4.2). -/
def ogFromDom (base : Option Url) (ns : List Node) : OgRecord :=
  (metaPropPairs ns).foldl (fun acc pc => ogStep base acc pc.1 pc.2) ogEmpty

/-- Modelled from the spec: §6 — `extract_opengraph(html, base_url?)`. -/
def extract_opengraph (html : String) (base_url : Option String := none) : OgRecord :=
  ogFromDom (base_url.bind parseUrl) (parseHtml html)

/-- The `name`/`content` pairs of every `<meta>` element, in document
order (names lowercased). -/
def metaNamePairs (ns : List Node) : List (String × String) :=
  (allElems (nodesSize ns + 1) ns).flatMap (fun n =>
    match n with
    | .elem "meta" attrs _ =>
      (match getAttr attrs "name" with
       | some p =>
         let c := attrD attrs "content"
         if p = "" || c = "" then [] else [(lowerS p, c)]
       | none => [])
    | _ => [])

/-- Modelled from the spec: §4.3 — the Twitter Card record: every
`<meta name=twitter:...>` keyed by the suffix after `twitter:`, first
occurrence wins.  The model keeps the qualified player/app keys in their
colon-joined form (`player:width`, ...), which preserves the §4.3 field
inventory without a nested representation; no claim inspects nesting. -/
def twitterFromDom (ns : List Node) : List (String × String) :=
  (metaNamePairs ns).foldl
    (fun acc pc =>
      if startsWithS pc.1 "twitter:" then
        let k := dropS pc.1 8
        if k = "" then acc
        else if acc.any (fun kv => kv.1 == k) then acc
        else acc ++ [(k, pc.2)]
      else acc)
    []

/-- Modelled from the spec: §6 — `extract_twitter(html, base_url?)`. -/
def extract_twitter (html : String) (base_url : Option String := none) :
    List (String × String) :=
  twitterFromDom (parseHtml html)

/-- Append the entry when the key is still absent and a value exists. -/
def fillIfAbsent (m : List (String × String)) (k : String) (v : Option String) :
    List (String × String) :=
  if m.any (fun kv => kv.1 == k) then m
  else match v with
    | some w => m ++ [(k, w)]
    | none => m

/-- The scalar Open Graph projections used by the Twitter fallback:
`title ← og:title`, `description ← og:description`,
`image ← og:image[0].url`, `url ← og:url` (spec §4.3). -/
def ogProjection (og : OgRecord) : List (String × Option String) :=
  [("title", og.title), ("description", og.description),
   ("image", og.images.head?.bind (fun sub => (sub.find? (fun kv => kv.1 == "url")).map (·.2))),
   ("url", og.url)]

/-- Modelled from the spec: §4.3 — `extract_twitter_with_fallback`:
perform the Twitter extraction, then for each absent key among
`{title, description, image, url}` copy the scalar Open Graph projection.
Existing Twitter keys are never overwritten and only scalars are copied. -/
def extract_twitter_with_fallback (html : String) (base_url : Option String := none) :
    List (String × String) :=
  let tw := extract_twitter html base_url
  let og := extract_opengraph html base_url
  (ogProjection og).foldl (fun m kv => fillIfAbsent m kv.1 kv.2) tw

/-- Dublin Core keys that accept multiple occurrences (spec §4.4). -/
def dcListKeys : List String :=
  ["contributor", "creator", "subject", "language", "rights"]

/-- Modelled from the spec: §4.4 — the Dublin Core record: `<meta name>`
beginning with `DC.`, `dc:`, `DCTERMS.` or `dcterms:` (case-insensitive),
keyed by the lowercased suffix; the multi-occurrence keys collect into
lists, all others are first-wins scalars. -/
def dublinCoreFromDom (ns : List Node) : List (String × MetaValue) :=
  (metaNamePairs ns).foldl
    (fun acc pc =>
      let nm := pc.1
      let suffix : Option String :=
        if startsWithS nm "dc." || startsWithS nm "dc:" then some (dropS nm 3)
        else if startsWithS nm "dcterms." || startsWithS nm "dcterms:" then some (dropS nm 8)
        else none
      match suffix with
      | some k =>
        if k = "" then acc
        else if dcListKeys.contains k then mergeOne acc (k, .l [pc.2])
        else mergeOne acc (k, .s pc.2)
      | none => acc)
    []

/-- Modelled from the spec: §6 — `extract_dublin_core(html, base_url?)`. -/
def extract_dublin_core (html : String) (base_url : Option String := none) :
    List (String × MetaValue) :=
  dublinCoreFromDom (parseHtml html)

/-- An oEmbed discovery link: the endpoint href and an optional title. -/
structure OembedLink where
  href : String
  title : Option String

/-- Modelled from the spec: §4.5 — oEmbed discovery: the first
`<link rel=alternate type=application/json+oembed>` and the `text/xml`
variant. -/
structure OembedResult where
  json : Option OembedLink
  xml : Option OembedLink

/-- oEmbed discovery over a parsed DOM (spec §4.5). -/
def oembedFromDom (base : Option Url) (ns : List Node) : OembedResult :=
  (allElems (nodesSize ns + 1) ns).foldl
    (fun acc n =>
      match n with
      | .elem "link" attrs _ =>
        let rels := (wsTokens (attrD attrs "rel")).map lowerS
        let ty := lowerS (attrD attrs "type")
        let href := attrD attrs "href"
        if rels.contains "alternate" && href ≠ "" then
          let link : OembedLink :=
            { href := resolveUrl base href,
              title := getAttr attrs "title" }
          if ty = "application/json+oembed" then
            { acc with json := match acc.json with | some _ => acc.json | none => some link }
          else if ty = "text/xml+oembed" then
            { acc with xml := match acc.xml with | some _ => acc.xml | none => some link }
          else acc
        else acc
      | _ => acc)
    { json := none, xml := none }

/-- Modelled from the spec: §6 — `extract_oembed(html, base_url?)`. -/
def extract_oembed (html : String) (base_url : Option String := none) : OembedResult :=
  oembedFromDom (base_url.bind parseUrl) (parseHtml html)

/-- Append a keyed occurrence to a grouped map, opening a new group for a
fresh key and appending to the existing group otherwise (document order
is preserved in both dimensions). -/
def groupAdd (acc : List (String × List α)) (k : String) (v : α) :
    List (String × List α) :=
  if acc.any (fun kv => kv.1 == k) then
    acc.map (fun kv => if kv.1 == k then (kv.1, kv.2 ++ [v]) else kv)
  else acc ++ [(k, [v])]

/-- Fold keyed occurrences into a grouped map. -/
def groupOcc (occ : List (String × α)) : List (String × List α) :=
  occ.foldl (fun acc kv => groupAdd acc kv.1 kv.2) []

/-- Modelled from the spec: §4.6 — the rel-links extractor: every
`<link>` or `<a>` with a `rel` attribute, grouped by lowercased rel
token; each entry carries its resolved href (the optional descriptor
fields `hreflang`/`type`/`title`/`media`/`sizes`, which no claim
inspects, are not modelled). -/
def relLinksFromDom (base : Option Url) (ns : List Node) : List (String × List String) :=
  groupOcc ((allElems (nodesSize ns + 1) ns).flatMap (fun n =>
    match n with
    | .elem "link" attrs _ =>
      let href := attrD attrs "href"
      if href = "" then []
      else ((wsTokens (attrD attrs "rel")).map lowerS).map
        (fun tok => (tok, resolveUrl base href))
    | .elem "a" attrs _ =>
      let href := attrD attrs "href"
      if href = "" then []
      else ((wsTokens (attrD attrs "rel")).map lowerS).map
        (fun tok => (tok, resolveUrl base href))
    | _ => []))

/-- Modelled from the spec: §6 — `extract_rel_links(html, base_url?)`. -/
def extract_rel_links (html : String) (base_url : Option String := none) :
    List (String × List String) :=
  relLinksFromDom (base_url.bind parseUrl) (parseHtml html)

/-- Does the list start with the given pattern, compared exactly? -/
def startsWithExact : List Char → List Char → Bool
  | [], _ => true
  | _ :: _, [] => false
  | p :: ps, c :: cs => p == c && startsWithExact ps cs

/-- Is the `type` attribute value `application/ld+json` after lowercasing
and ignoring trailing `;`-separated parameters (spec §4.7)? -/
def isJsonLdType (ty : String) : Bool :=
  trimS ⟨lowerL ((splitOnChar ';' ty.data).headD [])⟩ == "application/ld+json"

/-- Concatenated text of a script element's children (CDATA text stays
literal inside raw text). -/
def scriptText (cs : List Node) : String :=
  textContentL (nodesSize cs + 1) cs

/-- Modelled from the spec: §4.7 — block text preparation: trim, strip an
optional leading `<![CDATA[` and trailing `]]>`, trim again. -/
def stripCdata (s : String) : String :=
  let t := trimL s.data
  let t := if startsWithExact "<![CDATA[".data t then t.drop 9 else t
  let r := t.reverse
  let r := if startsWithExact "]]>".data.reverse r then r.drop 3 else r
  ⟨trimL r.reverse⟩

/-- The prepared text of every `<script type=application/ld+json>` block,
in document order (spec §4.7). -/
def scriptBlocks (ns : List Node) : List String :=
  (allElems (nodesSize ns + 1) ns).flatMap (fun n =>
    match n with
    | .elem "script" attrs cs =>
      if isJsonLdType (attrD attrs "type") then [stripCdata (scriptText cs)] else []
    | _ => [])

/-- Field lookup on a JSON object member list. -/
def jlookup (k : String) (fields : List (String × Json)) : Option Json :=
  (fields.find? (fun kv => kv.1 == k)).map (·.2)

/-- Modelled from the spec: §4.7 — top-level dispatch of one parsed
JSON-LD document: an object whose `@graph` is an array emits each graph
element (sibling keys discarded); an array emits each element; anything
else is emitted as the single object.  Nested JSON values remain JSON. -/
def jsonldDispatch (j : Json) : List Json :=
  match j with
  | .obj fields =>
    (match jlookup "@graph" fields with
     | some (.arr xs) => xs
     | _ => [.obj fields])
  | .arr xs => xs
  | _ => [j]

/-- JSON-LD extraction over a list of prepared block texts: blocks that
fail to parse are dropped; the rest dispatch in source order (spec §4.7). -/
def jsonldOfBlocks (blocks : List String) : List Json :=
  (blocks.filterMap parseJson).flatMap jsonldDispatch

/-- The parsed JSON-LD documents of an input, in source order. -/
def jsonldDocs (html : String) : List Json :=
  (scriptBlocks (parseHtml html)).filterMap parseJson

/-- Modelled from the spec: §6 — `extract_jsonld(html, base_url?)` (the
base URL plays no role in JSON-LD extraction). -/
def extract_jsonld (html : String) (base_url : Option String := none) : List Json :=
  (jsonldDocs html).flatMap jsonldDispatch

/-- Modelled from the spec: §3 MicrodataItem — a microdata value is a
scalar string or a nested item `{type, id?, properties}` (URL values are
carried as resolved strings).  The nested-item constructor carries the
item fields directly, flattening the spec's two-type shape into one
nested inductive. -/
inductive MdValue where
  | s (v : String)
  | item (type : List String) (id : Option String)
      (properties : List (String × List MdValue))

/-- Modelled from the spec: §4.8 — property-value extraction by element
type: `meta → content`; media elements → resolved `src`; anchors →
resolved `href`; `object → data`; `data`/`meter` → `value`; `time` →
`datetime` else text; anything else → collapsed text content. -/
def mdLeafValue (base : Option Url) (tag : String) (attrs : List (String × String))
    (cs : List Node) : MdValue :=
  if tag = "meta" then .s (attrD attrs "content")
  else if ["audio", "embed", "iframe", "img", "source", "track", "video"].contains tag then
    .s (resolveUrl base (attrD attrs "src"))
  else if ["a", "area", "link"].contains tag then
    .s (resolveUrl base (attrD attrs "href"))
  else if tag = "object" then .s (resolveUrl base (attrD attrs "data"))
  else if tag = "data" || tag = "meter" then .s (attrD attrs "value")
  else if tag = "time" then
    (match getAttr attrs "datetime" with
     | some d => .s d
     | none => .s (plainText cs))
  else .s (plainText cs)

mutual

/-- Modelled from the spec: §4.8 — collect the `itemprop` occurrences of
an item's subtree: an element with `itemprop` contributes one occurrence
per space-separated name (a nested `itemscope` becomes a nested item and
its inside is not scanned for the outer item); scanning continues into
property elements.  `itemref` indirection is not modelled (no claim
depends on it). -/
def mdScan (fuel : Nat) (base : Option Url) (ns : List Node) :
    List (String × MdValue) :=
  match fuel, ns with
  | 0, _ => []
  | _ + 1, [] => []
  | f + 1, n :: rest =>
    let tail := mdScan f base rest
    match n with
    | .elem tag attrs cs =>
      let names := wsTokens (attrD attrs "itemprop")
      if names.isEmpty then
        if hasAttr attrs "itemscope" then tail
        else mdScan f base cs ++ tail
      else
        let v :=
          if hasAttr attrs "itemscope" then mdItem f base tag attrs cs
          else mdLeafValue base tag attrs cs
        let deeper := if hasAttr attrs "itemscope" then [] else mdScan f base cs
        names.map (fun nm => (nm, v)) ++ deeper ++ tail
    | _ => tail

/-- Assemble one microdata item from an `itemscope` element (spec §4.8):
`type` splits `itemtype` on whitespace, `id` is `itemid`, and the
properties group in document order. -/
def mdItem (fuel : Nat) (base : Option Url) (tag : String)
    (attrs : List (String × String)) (cs : List Node) : MdValue :=
  .item (wsTokens (attrD attrs "itemtype")) (getAttr attrs "itemid")
    (groupOcc (mdScan fuel base cs))

end

/-- Modelled from the spec: §4.8 — the top-level microdata items: each
`itemscope` element that is not itself a property (`itemprop`), in
document order; the walk does not descend into a found item for further
top-level items. -/
def mdTopLevel (fuel : Nat) (base : Option Url) (ns : List Node) : List MdValue :=
  match fuel, ns with
  | 0, _ => []
  | _ + 1, [] => []
  | f + 1, n :: rest =>
    let tail := mdTopLevel f base rest
    match n with
    | .elem tag attrs cs =>
      if hasAttr attrs "itemscope" && !(hasAttr attrs "itemprop") then
        mdItem f base tag attrs cs :: tail
      else mdTopLevel f base cs ++ tail
    | _ => tail

/-- Modelled from the spec: §6 — `extract_microdata(html, base_url?)`. -/
def extract_microdata (html : String) (base_url : Option String := none) : List MdValue :=
  let ns := parseHtml html
  mdTopLevel (nodesSize ns + 1) (base_url.bind parseUrl) ns

/-- Modelled from the spec: §3 MicroformatItem — a microformat property
value: a text scalar, an `e-` embedded-HTML pair `{value, html}`, or a
nested item `{type, properties, children}` (the `.item` constructor
carries the item fields directly, flattening the spec's two-type shape
into one nested inductive; the optional `value`/`lang`/`id`/`shape`
fields, which no claim inspects, are not modelled).  Property names are
carried without their `p-`/`u-`/`dt-`/`e-` lead, and each properties
entry maps a name to the ordered list of its values. -/
inductive MfValue where
  | s (v : String)
  | e (value : String) (html : String)
  | item (type : List String) (properties : List (String × List MfValue))
      (children : List MfValue)

/-- The `type` list of an item value (empty for scalars). -/
def MfValue.typeOf : MfValue → List String
  | .item t _ _ => t
  | _ => []

/-- The properties of an item value (empty for scalars). -/
def MfValue.propsOf : MfValue → List (String × List MfValue)
  | .item _ p _ => p
  | _ => []

/-- The nested children of an item value (empty for scalars). -/
def MfValue.childrenOf : MfValue → List MfValue
  | .item _ _ c => c
  | _ => []

/-- Does the item carry a property of the given name? -/
def hasProp (it : MfValue) (name : String) : Bool :=
  it.propsOf.any (fun kv => kv.1 == name)

/-- Is every character a lowercase letter, digit or `-` (the alphabet of
microformat class names, spec §4.9.1)? -/
def mfNameOk (cs : List Char) : Bool :=
  cs.all (fun c => ('a' ≤ c && c ≤ 'z') || isDigit c || c == '-')

/-- The `h-*` root class tokens of a class attribute (spec §4.9.1:
tokens matching `h-[a-z0-9-]+`). -/
def rootClasses (attrs : List (String × String)) : List String :=
  (wsTokens (attrD attrs "class")).filter (fun tok =>
    match tok.data with
    | 'h' :: '-' :: rest => !rest.isEmpty && mfNameOk rest
    | _ => false)

/-- The property class tokens of a class attribute, as (kind, name)
pairs: kind is one of `p`, `u`, `dt`, `e` and the name drops the lead
(spec §4.9.2). -/
def propClasses (attrs : List (String × String)) : List (String × String) :=
  (wsTokens (attrD attrs "class")).filterMap (fun tok =>
    match tok.data with
    | 'd' :: 't' :: '-' :: rest =>
      if !rest.isEmpty && mfNameOk rest then some ("dt", ⟨rest⟩) else none
    | 'p' :: '-' :: rest =>
      if !rest.isEmpty && mfNameOk rest then some ("p", ⟨rest⟩) else none
    | 'u' :: '-' :: rest =>
      if !rest.isEmpty && mfNameOk rest then some ("u", ⟨rest⟩) else none
    | 'e' :: '-' :: rest =>
      if !rest.isEmpty && mfNameOk rest then some ("e", ⟨rest⟩) else none
    | _ => none)

/-- Serialize a forest back to HTML text (for `e-` property `html`
values). -/
def serializeL : Nat → List Node → String
  | 0, _ => ""
  | _ + 1, [] => ""
  | f + 1, n :: rest =>
    (match n with
     | .text s => s
     | .comment s => "<!--" ++ s ++ "-->"
     | .elem t a cs =>
       "<" ++ t ++ String.join (a.map (fun kv => " " ++ kv.1 ++ "=\"" ++ kv.2 ++ "\""))
         ++ ">" ++ serializeL f cs ++ "</" ++ t ++ ">")
      ++ serializeL f rest

/-- Modelled from the spec: §4.9.2 — the `u-` property value: the
element's dominant URL attribute by tag (`a`/`area`/`link → href`;
`img`/`audio`/`source`/`iframe`/`video → src`; `object → data`;
otherwise the first of `href`/`src`/`data`/`value`/`content` found),
falling back to the trimmed text; URL-resolved against the base. -/
def uValue (base : Option Url) (tag : String) (attrs : List (String × String))
    (cs : List Node) : String :=
  let raw : Option String :=
    if ["a", "area", "link"].contains tag then getAttr attrs "href"
    else if ["img", "audio", "source", "iframe", "video"].contains tag then
      getAttr attrs "src"
    else if tag = "object" then getAttr attrs "data"
    else
      (getAttr attrs "href").orElse (fun _ =>
        (getAttr attrs "src").orElse (fun _ =>
          (getAttr attrs "data").orElse (fun _ =>
            (getAttr attrs "value").orElse (fun _ => getAttr attrs "content"))))
  match raw with
  | some u => resolveUrl base u
  | none => plainText cs

/-- Modelled from the spec: §4.9.2 — the `dt-` property value, taken in
order from `time|ins|del[datetime]`, `abbr[title]`, `data|input[value]`,
else the element text; emitted verbatim with no normalization. -/
def dtValue (tag : String) (attrs : List (String × String)) (cs : List Node) : String :=
  if ["time", "ins", "del"].contains tag then
    (getAttr attrs "datetime").getD (plainText cs)
  else if tag = "abbr" then (getAttr attrs "title").getD (plainText cs)
  else if ["data", "input"].contains tag then
    (getAttr attrs "value").getD (plainText cs)
  else plainText cs

/-- Modelled from the spec: §4.9.2 — the per-kind property value of a
non-root property element.  The value-class pattern (§4.9.3), which no
claim exercises, is not modelled: each kind uses its default extraction. -/
def propValue (base : Option Url) (kind tag : String)
    (attrs : List (String × String)) (cs : List Node) : MfValue :=
  if kind = "p" then .s (plainText cs)
  else if kind = "u" then .s (uValue base tag attrs cs)
  else if kind = "dt" then .s (dtValue tag attrs cs)
  else .e (plainText cs) (serializeL (nodesSize cs + 1) cs)

/-- Modelled from the spec: §4.9.4 — the implied name of a root with no
explicit `name` property: an `img`/`area` root's non-empty `alt`, an
`abbr` root's non-empty `title`, else the root's trimmed text content
(the one-deep single-child lookups of rules 2–3 are not modelled; no
claim distinguishes them from the text fallback). -/
def impliedName (tag : String) (attrs : List (String × String)) (cs : List Node) : String :=
  if (tag = "img" || tag = "area") && attrD attrs "alt" ≠ "" then attrD attrs "alt"
  else if tag = "abbr" && attrD attrs "title" ≠ "" then attrD attrs "title"
  else plainText cs

/-- Modelled from the spec: §4.9.4 rule 4 — when a root item has no
explicit `name` property, the implied one is added. -/
def addImpliedName (tag : String) (attrs : List (String × String)) (cs : List Node)
    (props : List (String × List MfValue)) : List (String × List MfValue) :=
  if props.any (fun kv => kv.1 == "name") then props
  else props ++ [("name", [MfValue.s (impliedName tag attrs cs)])]

/-- Modelled from the spec: §4.9.4 — the implied `photo`: an `img` root's
resolved `src` or an `object` root's resolved `data` (the
single-`img`-child lookup of rule 2 is not modelled). -/
def addImpliedPhoto (base : Option Url) (tag : String) (attrs : List (String × String))
    (props : List (String × List MfValue)) : List (String × List MfValue) :=
  if props.any (fun kv => kv.1 == "photo") then props
  else if tag = "img" && attrD attrs "src" ≠ "" then
    props ++ [("photo", [MfValue.s (resolveUrl base (attrD attrs "src"))])]
  else if tag = "object" && attrD attrs "data" ≠ "" then
    props ++ [("photo", [MfValue.s (resolveUrl base (attrD attrs "data"))])]
  else props

/-- Modelled from the spec: §4.9.4 — the implied `url`: an `a`/`area`
root's resolved `href` (the single-child lookup of rule 2 is not
modelled). -/
def addImpliedUrl (base : Option Url) (tag : String) (attrs : List (String × String))
    (props : List (String × List MfValue)) : List (String × List MfValue) :=
  if props.any (fun kv => kv.1 == "url") then props
  else if (tag = "a" || tag = "area") && attrD attrs "href" ≠ "" then
    props ++ [("url", [MfValue.s (resolveUrl base (attrD attrs "href"))])]
  else props

/-- Modelled from the spec: §4.9.4–§4.9.5 — finalize one root item: group
the property occurrences in document order (same-named properties collect
into one list), then, when the root has no child microformat root, add
the implied `name`, `photo` and `url`.  Implied properties are skipped
entirely when any nested root is present. -/
def finalizeItem (base : Option Url) (tag : String) (attrs : List (String × String))
    (cs : List Node) (occ : List (String × MfValue)) (kids : List MfValue) : MfValue :=
  let props := groupOcc occ
  let props :=
    if kids.isEmpty then
      addImpliedUrl base tag attrs
        (addImpliedPhoto base tag attrs (addImpliedName tag attrs cs props))
    else props
  .item (rootClasses attrs) props kids

/-- Modelled from the spec: §4.9.1–§4.9.2 and §4.9.7 — the walk inside a
root: every descendant element with property classes contributes one
occurrence per class token; a descendant that is itself a root is parsed
once as a nested item, becoming a value of each of its property classes
(if any) and in every case an entry of the outer item's children; the
walk does not descend into a nested root for the outer item's
properties. -/
def mfScan (fuel : Nat) (base : Option Url) (ns : List Node) :
    List (String × MfValue) × List MfValue :=
  match fuel, ns with
  | 0, _ => ([], [])
  | _ + 1, [] => ([], [])
  | f + 1, n :: rest =>
    let (occT, kidsT) := mfScan f base rest
    match n with
    | .elem tag attrs cs =>
      if (rootClasses attrs).isEmpty then
        let own := (propClasses attrs).map (fun kn =>
          (kn.2, propValue base kn.1 tag attrs cs))
        let (occC, kidsC) := mfScan f base cs
        (own ++ occC ++ occT, kidsC ++ kidsT)
      else
        let (occN, kidsN) := mfScan f base cs
        let it := finalizeItem base tag attrs cs occN kidsN
        let asProps := (propClasses attrs).map (fun kn => (kn.2, it))
        (asProps ++ occT, it :: kidsT)
    | _ => (occT, kidsT)

/-- Modelled from the spec: §4.9.1 — the top-level roots of a document in
pre-order, each visited exactly once at its outermost containing root. -/
def mfTopLevel (fuel : Nat) (base : Option Url) (ns : List Node) : List MfValue :=
  match fuel, ns with
  | 0, _ => []
  | _ + 1, [] => []
  | f + 1, n :: rest =>
    let tail := mfTopLevel f base rest
    match n with
    | .elem tag attrs cs =>
      if (rootClasses attrs).isEmpty then mfTopLevel f base cs ++ tail
      else
        let (occ, kids) := mfScan f base cs
        finalizeItem base tag attrs cs occ kids :: tail
    | _ => tail

/-- Modelled from the spec: §4.9.6 — the global `rels` map: every
`<a rel>` or `<link rel>` groups its resolved href under each lowercased
rel token, duplicates removed in order. -/
def mfRels (base : Option Url) (ns : List Node) : List (String × List String) :=
  (relLinksFromDom base ns).map (fun kv => (kv.1, kv.2.eraseDups))

/-- Modelled from the spec: §4.9 and §6 — the aggregate microformats
result `{items, rels}` (the `rel-urls` secondary map, which no claim
inspects, is not modelled). -/
structure MicroformatsResult where
  items : List MfValue
  rels : List (String × List String)

/-- Modelled from the spec: §6 — `extract_microformats(html, base_url?)`. -/
def extract_microformats (html : String) (base_url : Option String := none) :
    MicroformatsResult :=
  let ns := parseHtml html
  let base := base_url.bind parseUrl
  { items := mfTopLevel (nodesSize ns + 1) base ns, rels := mfRels base ns }

/-- Modelled from the spec: §6 — the per-vocabulary extractors
(`extract_hcard`, ...) filter the aggregate items by root class. -/
def extractVocab (voc : String) (html : String) (base_url : Option String := none) :
    List MfValue :=
  (extract_microformats html base_url).items.filter (fun it => it.typeOf.contains voc)

/-- Modelled from the spec: §6 — `extract_hcard(html, base_url?)`. -/
def extract_hcard (html : String) (base_url : Option String := none) : List MfValue :=
  extractVocab "h-card" html base_url

/-- Modelled from the spec: §6 — `extract_hentry(html, base_url?)`. -/
def extract_hentry (html : String) (base_url : Option String := none) : List MfValue :=
  extractVocab "h-entry" html base_url

/-- Modelled from the spec: §6 — `extract_hevent(html, base_url?)`. -/
def extract_hevent (html : String) (base_url : Option String := none) : List MfValue :=
  extractVocab "h-event" html base_url

/-- Modelled from the spec: §4.10 and §6 — the value of one slot of the
aggregate result document. -/
inductive Slot where
  | metaS (m : List (String × MetaValue))
  | ogS (o : OgRecord)
  | twS (t : List (String × String))
  | jsonldS (l : List Json)
  | mdS (l : List MdValue)
  | mfS (m : MicroformatsResult)
  | dcS (m : List (String × MetaValue))
  | oeS (o : OembedResult)
  | relS (r : List (String × List String))

/-- Modelled from the spec: §4.10 and §6 — `extract_all(html, base_url?)`
invokes every extractor and returns the single keyed document with the
nine fixed keys; each slot is computed by its own extractor,
independently of the others, so a degenerate value in one slot never
affects another (every extractor here is total, which renders the spec's
error-isolation boundary: a failing extractor yields its empty value,
never an exception). -/
def extract_all (html : String) (base_url : Option String := none) :
    List (String × Slot) :=
  [("meta", .metaS (extract_meta html base_url)),
   ("opengraph", .ogS (extract_opengraph html base_url)),
   ("twitter", .twS (extract_twitter html base_url)),
   ("jsonld", .jsonldS (extract_jsonld html base_url)),
   ("microdata", .mdS (extract_microdata html base_url)),
   ("microformats", .mfS (extract_microformats html base_url)),
   ("dublin_core", .dcS (extract_dublin_core html base_url)),
   ("oembed", .oeS (extract_oembed html base_url)),
   ("rel_links", .relS (extract_rel_links html base_url))]

/-- The nine fixed keys of the aggregate result, in slot order (spec §3
ExtractionResult, §6). -/
def nineKeys : List String :=
  ["meta", "opengraph", "twitter", "jsonld", "microdata", "microformats",
   "dublin_core", "oembed", "rel_links"]

/-- A document of `n` nested `<div>`s around a text node, the deep
nesting shape of the resilience tests. -/
def deepDivs : Nat → String
  | 0 => "Content"
  | n + 1 => "<div>" ++ deepDivs n ++ "</div>"

/-! ### Concrete documents used to instantiate the general theorems,
taken from the spec's concrete scenarios (§8) and the test-suite
inputs. -/

/-- Spec §8 scenario 2: a single JSON-LD block whose top level is an
object with an `@graph` array of two objects. -/
def graphDoc : String :=
  "<script type=\"application/ld+json\">\x7b\"@graph\":[\x7b\"@type\":\"BreadcrumbList\"\x7d,\x7b\"@type\":\"Product\",\"name\":\"P\"\x7d]\x7d</script>"

/-- The two `@graph` elements of `graphDoc`, in source order. -/
def graphElems : List Json :=
  [Json.obj [("@type", Json.str "BreadcrumbList")],
   Json.obj [("@type", Json.str "Product"), ("name", Json.str "P")]]

/-- The parsed top-level members of `graphDoc`'s block. -/
def graphFields : List (String × Json) := [("@graph", Json.arr graphElems)]

/-- A parsed JSON-LD document with nested values: an `author` record and
a `recipeIngredient` array, as in the recipe example. -/
def recipeDoc : Json :=
  Json.obj [("@type", Json.str "Recipe"),
            ("author", Json.obj [("@type", Json.str "Person"), ("name", Json.str "A")]),
            ("recipeIngredient", Json.arr [Json.str "flour", Json.str "sugar"])]

/-- A `@graph` wrapper around `recipeDoc` with a discarded sibling key. -/
def recipeWrapper : Json :=
  Json.obj [("@context", Json.str "https://schema.org"),
            ("@graph", Json.arr [recipeDoc])]

/-- The broken-formats-mixed test input: a valid title next to a broken
JSON-LD block. -/
def mixedDoc : String :=
  "<title>Valid Title</title><script type=\"application/ld+json\">\x7bBROKEN JSON HERE\x7d</script>"

/-- The invalid-base-URL test input: a relative canonical link. -/
def canonicalDoc : String := "<link rel=\"canonical\" href=\"/page\">"

/-- Spec §8 scenario 4 shape: an h-card whose single `p-name` occurs
once. -/
def janeDoc : String := "<div class=\"h-card\"><span class=\"p-name\">Jane</span></div>"

/-- The item `janeDoc` extracts to: `name` is a one-element list. -/
def janeItem : MfValue := MfValue.item ["h-card"] [("name", [MfValue.s "Jane"])] []

/-- An h-card root whose only content is a nested root and no explicit
`p-name`: the implied-name step is skipped for it (spec §4.9.4). -/
def nestedRootDoc : String :=
  "<div class=\"h-card\"><span class=\"h-geo\"><span class=\"p-name\">X</span></span></div>"

/-- The missing-required-properties test input: an h-card with only a
`u-url` child. -/
def urlOnlyDoc : String :=
  "<div class=\"h-card\"><a class=\"u-url\" href=\"https://example.com\">Link</a></div>"

/-- The item `urlOnlyDoc` extracts to: the implied name comes from the
root's text content. -/
def urlOnlyItem : MfValue :=
  MfValue.item ["h-card"]
    [("url", [MfValue.s "https://example.com"]), ("name", [MfValue.s "Link"])] []

/-- Spec §8 scenario 7: Open Graph title and description, no `twitter:*`
tags. -/
def ogOnlyDoc : String :=
  "<meta property=\"og:title\" content=\"T\"><meta property=\"og:description\" content=\"D\">"

/-- The binary-like test input: a NUL byte inside the title text. -/
def nulDoc : String := "<html><head><title>Test\x00Title</title></head></html>"

/-! ### Theorems -/

/-- C1: for every input string and every optional base URL, `extract_all`
returns a map in which all nine fixed keys (`meta`, `opengraph`,
`twitter`, `jsonld`, `microdata`, `microformats`, `dublin_core`,
`oembed`, `rel_links`) are present — in particular for the empty,
whitespace-only, plain-text, XML and JSON inputs, which are ordinary
values of the universally quantified input. -/
theorem extract_all_nine_fixed_keys (html : String) (base_url : Option String) :
    (extract_all html base_url).map Prod.fst = nineKeys := by
  rfl

set_option maxRecDepth 100000 in
/-- C9: every extraction call is total by construction, and on the
deep-nesting family `deepDivs n` (100+ levels included) `extract_all`
returns its well-formed nine-key result map; at depth 100 (the
test-suite's depth) the result is evaluated concretely. -/
theorem deep_nesting_terminates_well_formed :
    (∀ (n : Nat) (base_url : Option String),
        (extract_all (deepDivs n) base_url).map Prod.fst = nineKeys) ∧
      (extract_microformats (deepDivs 100) none).items = [] ∧
      (extract_all (deepDivs 100) none).map Prod.fst = nineKeys := by
  refine ⟨fun n b => rfl, by rfl, by rfl⟩

/-- C2: when the parsed JSON-LD documents of the input consist of an
object whose `@graph` member is an array, surrounded by arbitrary other
documents, `extract_jsonld` emits exactly the `@graph` elements for that
document — each element independently, in source order, interleaved at
the document's position — and discards the outer object's sibling keys;
its contribution's length is the array's length. -/
theorem jsonld_graph_flattened (html : String) (base_url : Option String)
    (pre post : List Json) (fields : List (String × Json)) (xs : List Json)
    (hdocs : jsonldDocs html = pre ++ Json.obj fields :: post)
    (hg : jlookup "@graph" fields = some (Json.arr xs)) :
    extract_jsonld html base_url =
      pre.flatMap jsonldDispatch ++ xs ++ post.flatMap jsonldDispatch ∧
      (jsonldDispatch (Json.obj fields)).length = xs.length := by
  have hdisp : jsonldDispatch (Json.obj fields) = xs := by
    simp [jsonldDispatch, hg]
  constructor
  · show (jsonldDocs html).flatMap jsonldDispatch = _
    rw [hdocs]
    simp [hdisp, List.append_assoc]
  · rw [hdisp]

/-- C2 witness: the spec's scenario-2 document: two `@graph` elements are
emitted as two independent objects, in source order. -/
theorem jsonld_graph_flattened_witness :
    jsonldDocs graphDoc = [] ++ Json.obj graphFields :: [] ∧
      jlookup "@graph" graphFields = some (Json.arr graphElems) ∧
      (extract_jsonld graphDoc none =
          [].flatMap jsonldDispatch ++ graphElems ++ [].flatMap jsonldDispatch ∧
        (jsonldDispatch (Json.obj graphFields)).length = graphElems.length) ∧
      graphElems.length = 2 :=
  ⟨by rfl, by rfl,
   jsonld_graph_flattened graphDoc none [] [] graphFields graphElems (by rfl) (by rfl),
   by rfl⟩

/-- C3: every object emitted by the JSON-LD top-level dispatch is a
verbatim sub-value of the parsed document — the document itself, an
element of its top-level array, or an element of its `@graph` array — so
the nested arrays and objects inside it (author, nutrition,
recipeIngredient, itemListElement, ...) are carried through unchanged as
JSON values of that object and are never flattened into separate emitted
objects; the value taxonomy of §3 is the `Json` type itself. -/
theorem jsonld_nested_values_preserved (j o : Json) (ho : o ∈ jsonldDispatch j) :
    o = j ∨ (∃ xs, j = Json.arr xs ∧ o ∈ xs) ∨
      (∃ fields xs, j = Json.obj fields ∧
        jlookup "@graph" fields = some (Json.arr xs) ∧ o ∈ xs) := by
  cases j with
  | arr xs =>
    exact Or.inr (Or.inl ⟨xs, rfl, by simpa [jsonldDispatch] using ho⟩)
  | obj fields =>
    cases hg : jlookup "@graph" fields with
    | some g =>
      cases g with
      | arr xs =>
        exact Or.inr (Or.inr ⟨fields, xs, rfl, hg, by simpa [jsonldDispatch, hg] using ho⟩)
      | _ =>
        left
        simp only [jsonldDispatch, hg] at ho
        simpa using ho
    | none =>
      left
      simp only [jsonldDispatch, hg] at ho
      simpa using ho
  | _ =>
    left
    simpa [jsonldDispatch] using ho

/-- C3 witness: the recipe document, emitted from an `@graph` wrapper,
is carried verbatim — with its nested `author` record and
`recipeIngredient` array intact. -/
theorem jsonld_nested_values_preserved_witness :
    recipeDoc ∈ jsonldDispatch recipeWrapper ∧
      (recipeDoc = recipeWrapper ∨
        (∃ xs, recipeWrapper = Json.arr xs ∧ recipeDoc ∈ xs) ∨
        (∃ fields xs, recipeWrapper = Json.obj fields ∧
          jlookup "@graph" fields = some (Json.arr xs) ∧ recipeDoc ∈ xs)) :=
  have hm : recipeDoc ∈ jsonldDispatch recipeWrapper := List.Mem.head _
  ⟨hm, jsonld_nested_values_preserved recipeWrapper recipeDoc hm⟩

/-- C4: a JSON-LD block whose content fails to parse is dropped from the
extraction — removing it from the block list leaves the result unchanged
— and the extraction never signals an error (it is a total function into
a list); moreover every slot of `extract_all` is computed by its own
extractor, so the degenerate `jsonld` slot leaves the `meta` slot (and
every other) populated exactly as its extractor populates it. -/
theorem jsonld_broken_block_dropped (pre post : List String) (b : String)
    (hb : parseJson b = none) (html : String) (base_url : Option String) :
    jsonldOfBlocks (pre ++ b :: post) = jsonldOfBlocks (pre ++ post) ∧
      List.lookup "meta" (extract_all html base_url) =
        some (Slot.metaS (extract_meta html base_url)) ∧
      List.lookup "jsonld" (extract_all html base_url) =
        some (Slot.jsonldS (extract_jsonld html base_url)) := by
  refine ⟨?_, by rfl, by rfl⟩
  simp [jsonldOfBlocks, List.filterMap_append, List.filterMap_cons, hb]

/-- C4 witness: the broken-formats-mixed document: its trailing-garbage
JSON block parses to nothing, the block's presence does not change the
extraction, `extract_jsonld` returns the empty list without failing, and
the `meta` slot of the same call still carries the valid title. -/
theorem jsonld_broken_block_dropped_witness :
    parseJson "\x7bBROKEN JSON HERE\x7d" = none ∧
      (jsonldOfBlocks (["[1]"] ++ "\x7bBROKEN JSON HERE\x7d" :: []) =
          jsonldOfBlocks (["[1]"] ++ []) ∧
        List.lookup "meta" (extract_all mixedDoc none) =
          some (Slot.metaS (extract_meta mixedDoc none)) ∧
        List.lookup "jsonld" (extract_all mixedDoc none) =
          some (Slot.jsonldS (extract_jsonld mixedDoc none))) ∧
      extract_jsonld mixedDoc none = [] ∧
      (extract_meta mixedDoc none).map Prod.fst = ["title"] :=
  ⟨by rfl,
   jsonld_broken_block_dropped ["[1]"] [] "\x7bBROKEN JSON HERE\x7d" (by rfl) mixedDoc none,
   by rfl, by rfl⟩

/-- C5: a base-URL string that fails to parse (non-URL text, a relative
path, the empty string) is treated as an absent base: every `extract_*`
operation returns exactly what it returns with no base at all — total,
hence without signalling — and URL resolution against the failed base
returns every reference unchanged, so relative hrefs surface
unresolved. -/
theorem invalid_base_url_treated_absent (html b : String) (hb : parseUrl b = none) :
    extract_all html (some b) = extract_all html none ∧
      extract_meta html (some b) = extract_meta html none ∧
      extract_twitter_with_fallback html (some b) =
        extract_twitter_with_fallback html none ∧
      (∀ ref, resolveUrl (parseUrl b) ref = ref) := by
  refine ⟨?_, ?_, ?_, fun ref => by rw [hb]; rfl⟩
  · simp [extract_all, extract_meta, extract_opengraph, extract_twitter,
      extract_jsonld, extract_microdata, extract_microformats,
      extract_dublin_core, extract_oembed, extract_rel_links, Option.bind, hb]
  · simp [extract_meta, Option.bind, hb]
  · simp [extract_twitter_with_fallback, extract_twitter, extract_opengraph,
      Option.bind, hb]

/-- C5 witness: with the non-URL base of the invalid-URL tests, the
extraction of a relative canonical link returns normally and surfaces the
href unresolved. -/
theorem invalid_base_url_treated_absent_witness :
    parseUrl "not a url" = none ∧
      (extract_all canonicalDoc (some "not a url") = extract_all canonicalDoc none ∧
        extract_meta canonicalDoc (some "not a url") = extract_meta canonicalDoc none ∧
        extract_twitter_with_fallback canonicalDoc (some "not a url") =
          extract_twitter_with_fallback canonicalDoc none ∧
        (∀ ref, resolveUrl (parseUrl "not a url") ref = ref)) ∧
      extract_meta canonicalDoc (some "not a url") = [("canonical", MetaValue.s "/page")] ∧
      parseUrl "/relative/path" = none ∧ parseUrl "" = none :=
  ⟨by rfl,
   invalid_base_url_treated_absent canonicalDoc "not a url" (by rfl),
   by rfl, by rfl, by rfl⟩

/-- Grouping one occurrence preserves the invariant that every group is
nonempty. -/
theorem groupAdd_nonempty {α : Type} (acc : List (String × List α)) (k : String) (v : α)
    (hacc : ∀ kv ∈ acc, kv.2 ≠ []) : ∀ kv ∈ groupAdd acc k v, kv.2 ≠ [] := by
  intro kv hkv
  unfold groupAdd at hkv
  split at hkv
  · obtain ⟨kv0, hkv0, hkv0e⟩ := List.mem_map.mp hkv
    by_cases h0 : kv0.1 == k
    · rw [if_pos h0] at hkv0e
      subst hkv0e
      simp
    · rw [if_neg h0] at hkv0e
      subst hkv0e
      exact hacc kv0 hkv0
  · rcases List.mem_append.mp hkv with h | h
    · exact hacc kv h
    · simp only [List.mem_singleton] at h
      subst h
      simp

/-- Every group produced by `groupOcc` is a nonempty list: a key is only
ever present together with at least one collected occurrence. -/
theorem groupOcc_nonempty {α : Type} (occ : List (String × α)) :
    ∀ kv ∈ groupOcc occ, kv.2 ≠ [] := by
  suffices h : ∀ (acc : List (String × List α)), (∀ kv ∈ acc, kv.2 ≠ []) →
      ∀ kv ∈ occ.foldl (fun acc kv => groupAdd acc kv.1 kv.2) acc, kv.2 ≠ [] by
    exact h [] (by simp)
  induction occ with
  | nil => intro acc hacc kv hkv; exact hacc kv hkv
  | cons e rest ih =>
    intro acc hacc kv hkv
    exact ih (groupAdd acc e.1 e.2) (groupAdd_nonempty acc e.1 e.2 hacc) kv hkv

/-- `addImpliedName` appends at most a singleton property whose value
list is nonempty. -/
theorem addImpliedName_tail (tag : String) (attrs : List (String × String))
    (cs : List Node) (props : List (String × List MfValue)) :
    ∃ t, addImpliedName tag attrs cs props = props ++ t ∧ ∀ kv ∈ t, kv.2 ≠ [] := by
  unfold addImpliedName
  split
  · exact ⟨[], by simp⟩
  · exact ⟨_, rfl, by simp⟩

/-- `addImpliedPhoto` appends at most a singleton property whose value
list is nonempty. -/
theorem addImpliedPhoto_tail (base : Option Url) (tag : String)
    (attrs : List (String × String)) (props : List (String × List MfValue)) :
    ∃ t, addImpliedPhoto base tag attrs props = props ++ t ∧ ∀ kv ∈ t, kv.2 ≠ [] := by
  unfold addImpliedPhoto
  split
  · exact ⟨[], by simp⟩
  · split
    · exact ⟨_, rfl, by simp⟩
    · split
      · exact ⟨_, rfl, by simp⟩
      · exact ⟨[], by simp⟩

/-- `addImpliedUrl` appends at most a singleton property whose value list
is nonempty. -/
theorem addImpliedUrl_tail (base : Option Url) (tag : String)
    (attrs : List (String × String)) (props : List (String × List MfValue)) :
    ∃ t, addImpliedUrl base tag attrs props = props ++ t ∧ ∀ kv ∈ t, kv.2 ≠ [] := by
  unfold addImpliedUrl
  split
  · exact ⟨[], by simp⟩
  · split
    · exact ⟨_, rfl, by simp⟩
    · exact ⟨[], by simp⟩

/-- After `addImpliedName` the `name` key is always present. -/
theorem addImpliedName_has_name (tag : String) (attrs : List (String × String))
    (cs : List Node) (props : List (String × List MfValue)) :
    (addImpliedName tag attrs cs props).any (fun kv => kv.1 == "name") = true := by
  unfold addImpliedName
  split
  · assumption
  · simp

/-- The properties of a finalized item, written out. -/
theorem finalizeItem_propsOf (base : Option Url) (tag : String)
    (attrs : List (String × String)) (cs : List Node)
    (occ : List (String × MfValue)) (kids : List MfValue) :
    (finalizeItem base tag attrs cs occ kids).propsOf =
      if kids.isEmpty then
        addImpliedUrl base tag attrs
          (addImpliedPhoto base tag attrs (addImpliedName tag attrs cs (groupOcc occ)))
      else groupOcc occ := rfl

/-- The children of a finalized item are exactly the nested roots found
by the scan. -/
theorem finalizeItem_childrenOf (base : Option Url) (tag : String)
    (attrs : List (String × String)) (cs : List Node)
    (occ : List (String × MfValue)) (kids : List MfValue) :
    (finalizeItem base tag attrs cs occ kids).childrenOf = kids := rfl

/-- Every property list of a finalized item is nonempty (spec §4.9.5:
"always a list, even of length 1"). -/
theorem finalizeItem_props_nonempty (base : Option Url) (tag : String)
    (attrs : List (String × String)) (cs : List Node)
    (occ : List (String × MfValue)) (kids : List MfValue) :
    ∀ kv ∈ (finalizeItem base tag attrs cs occ kids).propsOf, kv.2 ≠ [] := by
  intro kv hkv
  have hg := groupOcc_nonempty occ
  rw [finalizeItem_propsOf] at hkv
  split at hkv
  · obtain ⟨t1, he1, ht1⟩ := addImpliedName_tail tag attrs cs (groupOcc occ)
    obtain ⟨t2, he2, ht2⟩ := addImpliedPhoto_tail base tag attrs (addImpliedName tag attrs cs (groupOcc occ))
    obtain ⟨t3, he3, ht3⟩ := addImpliedUrl_tail base tag attrs
      (addImpliedPhoto base tag attrs (addImpliedName tag attrs cs (groupOcc occ)))
    rw [he3, he2, he1] at hkv
    rcases List.mem_append.mp hkv with h | h
    · rcases List.mem_append.mp h with h' | h'
      · rcases List.mem_append.mp h' with h'' | h''
        · exact hg kv h''
        · exact ht1 kv h''
      · exact ht2 kv h'
    · exact ht3 kv h
  · exact hg kv hkv

/-- A finalized item with no nested microformat root always carries a
`name` property (the implied-name step runs exactly when there are no
child roots). -/
theorem finalizeItem_childless_has_name (base : Option Url) (tag : String)
    (attrs : List (String × String)) (cs : List Node)
    (occ : List (String × MfValue)) :
    hasProp (finalizeItem base tag attrs cs occ []) "name" = true := by
  unfold hasProp
  rw [finalizeItem_propsOf]
  simp only [List.isEmpty_nil, if_true]
  obtain ⟨t2, he2, _⟩ := addImpliedPhoto_tail base tag attrs
    (addImpliedName tag attrs cs (groupOcc occ))
  obtain ⟨t3, he3, _⟩ := addImpliedUrl_tail base tag attrs
    (addImpliedPhoto base tag attrs (addImpliedName tag attrs cs (groupOcc occ)))
  rw [he3, he2, List.append_assoc, List.any_append]
  rw [addImpliedName_has_name tag attrs cs (groupOcc occ)]
  rfl

/-- Every item of the top-level walk satisfies the per-item invariants:
all of its property lists are nonempty, and when it has no nested root it
carries a `name` property. -/
theorem mfTopLevel_items_ok (fuel : Nat) (base : Option Url) :
    ∀ (ns : List Node) (it : MfValue), it ∈ mfTopLevel fuel base ns →
      (∀ kv ∈ it.propsOf, kv.2 ≠ []) ∧
        (it.childrenOf = [] → hasProp it "name" = true) := by
  induction fuel with
  | zero => intro ns it hit; simp [mfTopLevel] at hit
  | succ f ih =>
    intro ns it hit
    match ns with
    | [] => simp [mfTopLevel] at hit
    | Node.text s :: rest => exact ih rest it (by simpa [mfTopLevel] using hit)
    | Node.comment s :: rest => exact ih rest it (by simpa [mfTopLevel] using hit)
    | Node.elem tag attrs cs :: rest =>
      by_cases hr : (rootClasses attrs).isEmpty
      · rw [mfTopLevel, if_pos hr] at hit
        rcases List.mem_append.mp hit with h | h
        · exact ih cs it h
        · exact ih rest it h
      · rw [mfTopLevel, if_neg hr] at hit
        rcases hscan : mfScan f base cs with ⟨occ, kids⟩
        rw [hscan] at hit
        rcases List.mem_cons.mp hit with rfl | h
        · refine ⟨finalizeItem_props_nonempty base tag attrs cs occ kids, fun hleaf => ?_⟩
          have hkids : kids = [] := hleaf
          subst hkids
          exact finalizeItem_childless_has_name base tag attrs cs occ
        · exact ih rest it h

/-- C6: in every item returned by the microformats extractor, each
property value under the properties map is a (nonempty) list — a
property that occurred exactly once is a one-element list, never a
scalar. -/
theorem microformat_property_values_are_lists (html : String) (base_url : Option String)
    (it : MfValue) (hit : it ∈ (extract_microformats html base_url).items)
    (kv : String × List MfValue) (hkv : kv ∈ it.propsOf) : kv.2 ≠ [] :=
  (mfTopLevel_items_ok _ _ _ it hit).1 kv hkv

/-- C6 witness: the single-occurrence `p-name` of the scenario-4 h-card
surfaces as the one-element list `name = ["Jane"]`. -/
theorem microformat_property_values_are_lists_witness :
    janeItem ∈ (extract_microformats janeDoc none).items ∧
      ("name", [MfValue.s "Jane"]) ∈ janeItem.propsOf ∧
      ([MfValue.s "Jane"] : List MfValue) ≠ [] :=
  have h1 : janeItem ∈ (extract_microformats janeDoc none).items := List.Mem.head _
  have h2 : ("name", [MfValue.s "Jane"]) ∈ janeItem.propsOf := List.Mem.head _
  ⟨h1, h2, microformat_property_values_are_lists janeDoc none janeItem h1 _ h2⟩

/-- C7 counterexample: an h-card whose only content is a nested root and
no explicit `p-name`: the implied-property step is skipped for roots with
child microformat roots (spec §4.9.4), so the outer item carries no
`name` property — the claim's universal "every h-* item has at least a
name property" is false on this input. -/
theorem microformat_name_not_universal :
    ((extract_microformats nestedRootDoc none).items.all
        (fun it => hasProp it "name")) = false ∧
      (extract_microformats nestedRootDoc none).items.length = 1 := by
  exact ⟨by rfl, by rfl⟩

/-- C7 (amended): every h-* item that has no nested microformat root
carries at least a `name` property — when no explicit `p-name` is
present the implied-name rules supply one, falling back to the root's
trimmed text content, so an h-card with only a `u-url` child still
carries a name. -/
theorem microformat_childless_item_has_name (html : String) (base_url : Option String)
    (it : MfValue) (hit : it ∈ (extract_microformats html base_url).items)
    (hleaf : it.childrenOf = []) : hasProp it "name" = true :=
  (mfTopLevel_items_ok _ _ _ it hit).2 hleaf

/-- C7 witness: the h-card with only a `u-url` child (the
missing-required-properties test) still carries a name, implied from the
root's text content. -/
theorem microformat_childless_item_has_name_witness :
    urlOnlyItem ∈ (extract_microformats urlOnlyDoc none).items ∧
      urlOnlyItem.childrenOf = [] ∧
      hasProp urlOnlyItem "name" = true :=
  have h1 : urlOnlyItem ∈ (extract_microformats urlOnlyDoc none).items := List.Mem.head _
  ⟨h1, rfl, microformat_childless_item_has_name urlOnlyDoc none urlOnlyItem h1 rfl⟩

/-- The key-presence test used by the record builders agrees with
`List.lookup`. -/
theorem anyKey_eq_lookup_isSome (k : String) (m : List (String × String)) :
    m.any (fun kv => kv.1 == k) = (List.lookup k m).isSome := by
  induction m with
  | nil => rfl
  | cons e rest ih =>
    obtain ⟨k1, v1⟩ := e
    by_cases h : k = k1
    · subst h; simp [List.lookup]
    · have h1 : (k == k1) = false := by simpa using h
      have h2 : (k1 == k) = false := by simpa using Ne.symm h
      simp [List.lookup, h1, h2, ih]

/-- A successful lookup survives appending on the right. -/
theorem lookup_append_of_some (m m' : List (String × String)) (k v : String)
    (h : List.lookup k m = some v) : List.lookup k (m ++ m') = some v := by
  induction m with
  | nil => simp [List.lookup] at h
  | cons e rest ih =>
    obtain ⟨k1, v1⟩ := e
    by_cases hk : k = k1
    · subst hk; simpa [List.lookup] using h
    · have h1 : (k == k1) = false := by simpa using hk
      simp only [List.cons_append, List.lookup, h1] at h ⊢
      exact ih h

/-- A failed lookup defers to the appended tail. -/
theorem lookup_append_of_none (m m' : List (String × String)) (k : String)
    (h : List.lookup k m = none) : List.lookup k (m ++ m') = List.lookup k m' := by
  induction m with
  | nil => rfl
  | cons e rest ih =>
    obtain ⟨k1, v1⟩ := e
    by_cases hk : k = k1
    · subst hk; simp [List.lookup] at h
    · have h1 : (k == k1) = false := by simpa using hk
      simp only [List.lookup, h1] at h
      simp only [List.cons_append, List.lookup, h1]
      exact ih h

/-- `fillIfAbsent` never disturbs a key that is already present. -/
theorem lookup_fillIfAbsent_preserve (m : List (String × String)) (k k' v : String)
    (w : Option String) (h : List.lookup k m = some v) :
    List.lookup k (fillIfAbsent m k' w) = some v := by
  unfold fillIfAbsent
  split
  · exact h
  · cases w with
    | some u => exact lookup_append_of_some m [(k', u)] k v h
    | none => exact h

/-- `fillIfAbsent` fills exactly an absent key. -/
theorem lookup_fillIfAbsent_self (m : List (String × String)) (k v : String)
    (h : List.lookup k m = none) :
    List.lookup k (fillIfAbsent m k (some v)) = some v := by
  unfold fillIfAbsent
  rw [if_neg (by rw [anyKey_eq_lookup_isSome, h]; simp)]
  rw [lookup_append_of_none m [(k, v)] k h]
  simp [List.lookup]

/-- Filling one key leaves a different absent key absent. -/
theorem lookup_fillIfAbsent_none_other (m : List (String × String)) (k k' : String)
    (w : Option String) (hne : k ≠ k') (h : List.lookup k m = none) :
    List.lookup k (fillIfAbsent m k' w) = none := by
  unfold fillIfAbsent
  split
  · exact h
  · cases w with
    | some u =>
      rw [lookup_append_of_none m [(k', u)] k h]
      have h1 : (k == k') = false := by simpa using hne
      simp [List.lookup, h1]
    | none => exact h

/-- C8: `extract_twitter_with_fallback` fills each key among
`{title, description, image, url}` from its scalar Open Graph projection
exactly when the Twitter extraction left it absent — so on an input with
`og:title` and `og:description` but no `twitter:*` tags the fallback
title and description equal the Open Graph ones — and it never
overwrites a key the Twitter extraction produced. -/
theorem twitter_fallback_projection (html : String) (base_url : Option String) :
    (∀ t, List.lookup "title" (extract_twitter html base_url) = none →
        (extract_opengraph html base_url).title = some t →
        List.lookup "title" (extract_twitter_with_fallback html base_url) = some t) ∧
      (∀ d, List.lookup "description" (extract_twitter html base_url) = none →
          (extract_opengraph html base_url).description = some d →
          List.lookup "description" (extract_twitter_with_fallback html base_url) =
            some d) ∧
      (∀ k v, List.lookup k (extract_twitter html base_url) = some v →
          List.lookup k (extract_twitter_with_fallback html base_url) = some v) := by
  have hfb : extract_twitter_with_fallback html base_url =
      fillIfAbsent
        (fillIfAbsent
          (fillIfAbsent
            (fillIfAbsent (extract_twitter html base_url) "title"
              (extract_opengraph html base_url).title)
            "description" (extract_opengraph html base_url).description)
          "image" ((extract_opengraph html base_url).images.head?.bind
            (fun sub => (sub.find? (fun kv => kv.1 == "url")).map (·.2))))
        "url" (extract_opengraph html base_url).url := by
    simp [extract_twitter_with_fallback, ogProjection]
  refine ⟨fun t h1 h2 => ?_, fun d h1 h2 => ?_, fun k v h => ?_⟩
  · rw [hfb]
    refine lookup_fillIfAbsent_preserve _ _ _ _ _
      (lookup_fillIfAbsent_preserve _ _ _ _ _
        (lookup_fillIfAbsent_preserve _ _ _ _ _ ?_))
    rw [h2]
    exact lookup_fillIfAbsent_self _ _ _ h1
  · rw [hfb]
    refine lookup_fillIfAbsent_preserve _ _ _ _ _
      (lookup_fillIfAbsent_preserve _ _ _ _ _ ?_)
    rw [h2]
    refine lookup_fillIfAbsent_self _ _ _ ?_
    exact lookup_fillIfAbsent_none_other _ _ _ _ (by decide) h1
  · rw [hfb]
    exact lookup_fillIfAbsent_preserve _ _ _ _ _
      (lookup_fillIfAbsent_preserve _ _ _ _ _
        (lookup_fillIfAbsent_preserve _ _ _ _ _
          (lookup_fillIfAbsent_preserve _ _ _ _ _ h)))

/-- C8 witness: the spec's scenario-7 document: no `twitter:*` tags, so
the fallback title and description equal `og:title` and
`og:description`. -/
theorem twitter_fallback_projection_witness :
    List.lookup "title" (extract_twitter ogOnlyDoc none) = none ∧
      (extract_opengraph ogOnlyDoc none).title = some "T" ∧
      List.lookup "title" (extract_twitter_with_fallback ogOnlyDoc none) = some "T" ∧
      List.lookup "description" (extract_twitter_with_fallback ogOnlyDoc none) =
        some "D" :=
  ⟨by rfl, by rfl,
   (twitter_fallback_projection ogOnlyDoc none).1 "T" (by rfl) (by rfl),
   (twitter_fallback_projection ogOnlyDoc none).2.1 "D" (by rfl) (by rfl)⟩

/-- `emitKV` only emits entries with a nonempty key. -/
theorem emitKV_keys_nonempty (k : String) (v : MetaValue) :
    ∀ kv ∈ emitKV k v, kv.1 ≠ "" := by
  intro kv hkv
  unfold emitKV at hkv
  split at hkv
  · simp at hkv
  · simp only [List.mem_singleton] at hkv
    subst hkv
    assumption

/-- Merging an entry with a nonempty key preserves the nonempty-key
invariant of the record. -/
theorem mergeOne_keys_nonempty (acc : List (String × MetaValue)) (e : String × MetaValue)
    (hacc : ∀ kv ∈ acc, kv.1 ≠ "") (he : e.1 ≠ "") :
    ∀ kv ∈ mergeOne acc e, kv.1 ≠ "" := by
  intro kv hkv
  unfold mergeOne at hkv
  split at hkv
  · rcases List.mem_append.mp hkv with h | h
    · exact hacc kv h
    · simp only [List.mem_singleton] at h; subst h; exact he
  · split at hkv
    · obtain ⟨kv0, hkv0, hkv0e⟩ := List.mem_map.mp hkv
      by_cases h0 : kv0.1 == e.1
      · rw [if_pos h0] at hkv0e
        subst hkv0e
        exact hacc kv0 hkv0
      · rw [if_neg h0] at hkv0e
        subst hkv0e
        exact hacc kv0 hkv0
    · exact hacc kv hkv
  · exact hacc kv hkv

/-- Folding entries with nonempty keys preserves the invariant. -/
theorem mergeEntries_keys_nonempty (es : List (String × MetaValue)) :
    ∀ (acc : List (String × MetaValue)), (∀ kv ∈ acc, kv.1 ≠ "") →
      (∀ e ∈ es, e.1 ≠ "") → ∀ kv ∈ mergeEntries acc es, kv.1 ≠ "" := by
  induction es with
  | nil => intro acc hacc _ kv hkv; exact hacc kv hkv
  | cons e rest ih =>
    intro acc hacc hes kv hkv
    exact ih (mergeOne acc e)
      (mergeOne_keys_nonempty acc e hacc (hes e (List.mem_cons_self e rest)))
      (fun e' he' => hes e' (List.mem_cons_of_mem e he')) kv hkv

/-- Every key of the meta record is nonempty, whatever the DOM (spec §3
invariant). -/
theorem metaFromDom_keys_nonempty (base : Option Url) (ns : List Node) :
    ∀ kv ∈ metaFromDom base ns, kv.1 ≠ "" := by
  unfold metaFromDom
  generalize allElems (nodesSize ns + 1) ns = elems
  suffices h : ∀ (els : List Node) (acc : List (String × MetaValue)),
      (∀ kv ∈ acc, kv.1 ≠ "") →
      ∀ kv ∈ els.foldl
        (fun acc n => mergeEntries acc ((metaPairsOf base n).flatMap (fun kv => emitKV kv.1 kv.2)))
        acc, kv.1 ≠ "" by
    exact h elems [] (by simp)
  intro els
  induction els with
  | nil => intro acc hacc kv hkv; exact hacc kv hkv
  | cons n rest ih =>
    intro acc hacc kv hkv
    refine ih _ ?_ kv hkv
    refine mergeEntries_keys_nonempty _ _ hacc ?_
    intro e he
    obtain ⟨kv0, _, hkv0⟩ := List.mem_flatMap.mp he
    exact emitKV_keys_nonempty kv0.1 kv0.2 e hkv0

/-- C10: for every input string — NUL bytes, plain text, XML and JSON
included — `extract_meta` returns a well-formed record (every key
nonempty) and `extract_all` returns the nine-key map; both are total
functions of the input, so no content-level fault can surface as an
error. -/
theorem extract_meta_total_well_formed (html : String) (base_url : Option String)
    (k : String) (hk : k ∈ (extract_meta html base_url).map Prod.fst) :
    k ≠ "" ∧ (extract_all html base_url).map Prod.fst = nineKeys := by
  obtain ⟨kv, hkv, hke⟩ := List.mem_map.mp hk
  subst hke
  exact ⟨metaFromDom_keys_nonempty (base_url.bind parseUrl) (parseHtml html) kv hkv, rfl⟩

/-- C10 witness: the binary-like test input with a NUL byte inside the
title: extraction returns normally, the `title` key is present and
nonempty, and `extract_all` carries the nine fixed keys. -/
theorem extract_meta_total_well_formed_witness :
    "title" ∈ (extract_meta nulDoc none).map Prod.fst ∧
      ("title" ≠ "" ∧ (extract_all nulDoc none).map Prod.fst = nineKeys) :=
  have h : "title" ∈ (extract_meta nulDoc none).map Prod.fst := List.Mem.head _
  ⟨h, extract_meta_total_well_formed nulDoc none "title" h⟩

end MetaOxide
